import Mathlib

set_option autoImplicit false

namespace Minquery

/-! Verification of the minquery pagination library.

The development embeds the two components of the library:

* the default cursor codec of `cursor.go` (`CreateCursor` / `ParseCursor`),
  together with byte-level models of its two external collaborators,
  Go's `encoding/base64` `RawURLEncoding` and mgo's `bson.Marshal` /
  `bson.Unmarshal` restricted to the value universe the cursors use
  (integers, strings, UTC datetimes, null);
* the query builder and execution algorithm of `minquery.go`
  (`minQuery`, `Sort`, `Cursor`, `buildCmd`, `allButLast`, `All`), with
  the database round trip supplied as an explicit oracle.

Go strings are byte sequences, modelled as `List Nat`. -/

/-- Go strings are byte sequences; bytes are modelled as natural numbers. -/
abbrev GoStr := List Nat

/-- BSON values appearing in cursor data. `int` models a Go `int`
(64-bit), `int64` a Go `int64`, `str` a Go string, `datetime` a BSON UTC
datetime carrying milliseconds since the epoch (the granularity at which
mgo marshals a `time.Time`), and `null` a nil interface value. -/
inductive BVal where
  | int : Int → BVal
  | int64 : Int → BVal
  | str : GoStr → BVal
  | datetime : Int → BVal
  | null : BVal
deriving DecidableEq

/-- Model of `bson.D`: an ordered sequence of (field name, value) pairs. -/
abbrev BsonD := List (GoStr × BVal)

/-- Model of a document unmarshalled into `bson.M`, accessed only by lookup. -/
abbrev Doc := List (GoStr × BVal)

/-! Model of Go's `encoding/base64` with the `RawURLEncoding` alphabet:
URL-and-filename-safe alphabet, no padding. -/

/-- Byte value of the character for a 6-bit group under the URL-safe
base64 alphabet of RFC 4648 section 5. -/
def sixToB (v : Nat) : Nat :=
  if v < 26 then 65 + v
  else if v < 52 then 97 + (v - 26)
  else if v < 62 then 48 + (v - 52)
  else if v = 62 then 45
  else 95

/-- Inverse alphabet lookup: `none` for a byte outside the alphabet. -/
def bToSix (b : Nat) : Option Nat :=
  if 65 ≤ b ∧ b ≤ 90 then some (b - 65)
  else if 97 ≤ b ∧ b ≤ 122 then some (b - 71)
  else if 48 ≤ b ∧ b ≤ 57 then some (b + 4)
  else if b = 45 then some 62
  else if b = 95 then some 63
  else none

/-- Unpadded base64 encoding of a byte sequence: groups of three bytes
become four alphabet characters, a final group of one or two bytes
becomes two or three characters. -/
def b64encode : List Nat → List Nat
  | [] => []
  | [b1] => [sixToB (b1 / 4), sixToB (b1 % 4 * 16)]
  | [b1, b2] => [sixToB (b1 / 4), sixToB (b1 % 4 * 16 + b2 / 16), sixToB (b2 % 16 * 4)]
  | b1 :: b2 :: b3 :: rest =>
    sixToB (b1 / 4) :: sixToB (b1 % 4 * 16 + b2 / 16) ::
      sixToB (b2 % 16 * 4 + b3 / 64) :: sixToB (b3 % 64) :: b64encode rest

/-- Unpadded base64 decoding after newline stripping: four characters
yield three bytes, a final group of three or two characters yields two
bytes or one, a final group of one character is an encoding error, as is
any byte outside the alphabet. -/
def b64decodeCore : List Nat → Option (List Nat)
  | [] => some []
  | [_] => none
  | [c1, c2] =>
    match bToSix c1, bToSix c2 with
    | some v1, some v2 => some [v1 * 4 + v2 / 16]
    | _, _ => none
  | [c1, c2, c3] =>
    match bToSix c1, bToSix c2, bToSix c3 with
    | some v1, some v2, some v3 => some [v1 * 4 + v2 / 16, v2 % 16 * 16 + v3 / 4]
    | _, _, _ => none
  | c1 :: c2 :: c3 :: c4 :: rest =>
    match bToSix c1, bToSix c2, bToSix c3, bToSix c4, b64decodeCore rest with
    | some v1, some v2, some v3, some v4, some bs =>
      some ((v1 * 4 + v2 / 16) :: (v2 % 16 * 16 + v3 / 4) :: (v3 % 4 * 64 + v4) :: bs)
    | _, _, _, _, _ => none

/-- Go's base64 decoder ignores carriage returns (13) and newlines (10)
anywhere in its input, then decodes the remaining characters. -/
def b64decode (c : List Nat) : Option (List Nat) :=
  b64decodeCore (c.filter fun b => !(b == 13 || b == 10))

/-! Model of mgo's `bson.Marshal` and `bson.Unmarshal` on the cursor
value universe. A document is a little-endian int32 total length
(including itself and the final terminator), the serialized elements,
and a terminating zero byte. Each element is a type tag, a
zero-terminated field name, and a tag-specific payload. -/

/-- Little-endian bytes of an int32 (two's complement). -/
def int32bytes (i : Int) : List Nat :=
  let u := (i % 4294967296).toNat
  [u % 256, u / 256 % 256, u / 65536 % 256, u / 16777216 % 256]

/-- Little-endian bytes of an int64 (two's complement). -/
def int64bytes (i : Int) : List Nat :=
  let u := (i % 18446744073709551616).toNat
  [u % 256, u / 256 % 256, u / 65536 % 256, u / 16777216 % 256,
    u / 4294967296 % 256, u / 1099511627776 % 256,
    u / 281474976710656 % 256, u / 72057594037927936 % 256]

/-- Serialization of one BSON element. Following mgo's encoder: a Go
`int` marshals as BSON int32 (tag 0x10) when the value fits in 32 bits
and as BSON int64 (tag 0x12) otherwise; a Go `int64` always marshals as
BSON int64; a string (tag 0x02) carries an int32 length (content plus
terminator) then the bytes then a zero byte; a datetime (tag 0x09)
carries the milliseconds as an int64; nil marshals as null (tag 0x0A). -/
def encElem : GoStr × BVal → List Nat
  | (n, .int v) =>
    if -2147483648 ≤ v ∧ v < 2147483648 then 16 :: (n ++ [0] ++ int32bytes v)
    else 18 :: (n ++ [0] ++ int64bytes v)
  | (n, .int64 v) => 18 :: (n ++ [0] ++ int64bytes v)
  | (n, .str s) => 2 :: (n ++ [0] ++ int32bytes ((s.length : Int) + 1) ++ s ++ [0])
  | (n, .datetime v) => 9 :: (n ++ [0] ++ int64bytes v)
  | (n, .null) => 10 :: (n ++ [0])

/-- Serialization of the element list of a document. -/
def encElems : BsonD → List Nat
  | [] => []
  | p :: rest => encElem p ++ encElems rest

/-- Model of `bson.Marshal` on an ordered document. -/
def bsonMarshal (d : BsonD) : List Nat :=
  int32bytes ((encElems d).length + 5) ++ encElems d ++ [0]

/-- Reads a little-endian int32 (two's complement) from a byte stream. -/
def parseInt32le : List Nat → Option (Int × List Nat)
  | b0 :: b1 :: b2 :: b3 :: rest =>
    let u := b0 + b1 * 256 + b2 * 65536 + b3 * 16777216
    some (if u < 2147483648 then (u : Int) else (u : Int) - 4294967296, rest)
  | _ => none

/-- Reads a little-endian int64 (two's complement) from a byte stream. -/
def parseInt64le : List Nat → Option (Int × List Nat)
  | b0 :: b1 :: b2 :: b3 :: b4 :: b5 :: b6 :: b7 :: rest =>
    let u := b0 + b1 * 256 + b2 * 65536 + b3 * 16777216 +
      b4 * 4294967296 + b5 * 1099511627776 +
      b6 * 281474976710656 + b7 * 72057594037927936
    some (if u < 9223372036854775808 then (u : Int)
      else (u : Int) - 18446744073709551616, rest)
  | _ => none

/-- Reads a zero-terminated byte string (a BSON cstring). -/
def parseCString : List Nat → Option (GoStr × List Nat)
  | [] => none
  | 0 :: rest => some ([], rest)
  | b :: rest =>
    match parseCString rest with
    | some (s, r) => some (b :: s, r)
    | none => none

/-- Reads the payload of one element given its type tag. BSON int32
unmarshals into an interface value as a Go `int`, BSON int64 as a Go
`int64`, mirroring mgo's decoder. -/
def parseVal : Nat → List Nat → Option (BVal × List Nat)
  | 16, bs =>
    match parseInt32le bs with
    | some (v, r) => some (.int v, r)
    | none => none
  | 18, bs =>
    match parseInt64le bs with
    | some (v, r) => some (.int64 v, r)
    | none => none
  | 9, bs =>
    match parseInt64le bs with
    | some (v, r) => some (.datetime v, r)
    | none => none
  | 10, bs => some (.null, bs)
  | 2, bs =>
    match parseInt32le bs with
    | some (len, r) =>
      if 1 ≤ len ∧ len ≤ (r.length : Int) then
        match r.drop (len - 1).toNat with
        | 0 :: r2 => some (.str (r.take (len - 1).toNat), r2)
        | _ => none
      else none
    | none => none
  | _, _ => none

/-- Reads elements until the document terminator byte. The fuel is an
upper bound on the number of elements; callers pass the byte length of
the whole input, which suffices since every element occupies at least
one byte. -/
def parseElems : Nat → List Nat → Option (BsonD × List Nat)
  | _, 0 :: rest => some ([], rest)
  | fuel + 1, tag :: rest =>
    match parseCString rest with
    | some (n, r1) =>
      match parseVal tag r1 with
      | some (v, r2) =>
        match parseElems fuel r2 with
        | some (d, r3) => some ((n, v) :: d, r3)
        | none => none
      | none => none
    | none => none
  | _, _ => none

/-- Model of `bson.Unmarshal` into a `bson.D`: the length prefix must
equal the total input length and no bytes may remain after the
document, otherwise the document is rejected as corrupted. -/
def bsonUnmarshal (bs : List Nat) : Option BsonD :=
  match parseInt32le bs with
  | some (len, r) =>
    if len = (bs.length : Int) then
      match parseElems bs.length r with
      | some (d, []) => some d
      | _ => none
    else none
  | none => none

/-- Error values surfaced by the library and its collaborators. -/
inductive GoErr where
  | base64Corrupt : GoErr
  | bsonCorrupt : GoErr
  | testErr : GoErr
  | resultCorrupt : GoErr
  | dbFail : Nat → GoErr
  | custom : Nat → GoErr
deriving DecidableEq

/-- Model of `cursorCodec.CreateCursor`: marshal the cursor data, then
base64-encode it. `bson.Marshal` never fails on this value universe, so
the error result of the Go function is always nil. -/
def CreateCursor (cursorData : BsonD) : GoStr :=
  b64encode (bsonMarshal cursorData)

/-- Model of `cursorCodec.ParseCursor`: base64-decode the token, then
unmarshal the bytes; either step failing yields an error. -/
def ParseCursor (c : GoStr) : Option BsonD × Option GoErr :=
  match b64decode c with
  | none => (none, some .base64Corrupt)
  | some data =>
    match bsonUnmarshal data with
    | none => (none, some .bsonCorrupt)
    | some d => (some d, none)

/-- Model of the `CursorCodec` interface: a pair of functions, each
returning a value together with an optional error, as in Go. -/
structure CursorCodec where
  CreateCursor : BsonD → GoStr × Option GoErr
  ParseCursor : GoStr → Option BsonD × Option GoErr

/-- Model of the package-level `DefaultCursorCodec` value. -/
def DefaultCursorCodec : CursorCodec :=
  ⟨fun d => (CreateCursor d, none), ParseCursor⟩

/-! Model of the query builder and of `All`. The database round trip is
an oracle mapping the issued command to a reply. -/

/-- Values occurring in the command document handed to `db.Run`. The
filter and projection are opaque to the library and modelled by
handles. -/
inductive CmdVal where
  | str : GoStr → CmdVal
  | int : Int → CmdVal
  | bool : Bool → CmdVal
  | doc : BsonD → CmdVal
  | sortSpec : List (GoStr × Int) → CmdVal
  | opq : Nat → CmdVal
deriving DecidableEq

/-- Raw document of a reply batch: either bytes that fail to unmarshal,
or the document they unmarshal to. -/
inductive RawDoc where
  | corrupt : RawDoc
  | doc : Doc → RawDoc
deriving DecidableEq

/-- Reply of the single `db.Run` round trip. -/
inductive DBResp where
  | fail : GoErr → DBResp
  | ok : List RawDoc → DBResp
deriving DecidableEq

/-- Outcome of `All`: either a runtime panic, or the returned
`(cursor, err, hasMore)` triple together with the slice stored into the
caller's result container (`none` when the container is not written). -/
inductive Outcome where
  | panicked : Outcome
  | ret : GoStr → Option GoErr → Bool → Option (List Doc) → Outcome
deriving DecidableEq

/-- Model of the `minQuery` struct. -/
structure minQuery where
  coll : GoStr
  filter : Option Nat
  sort : Option (List (GoStr × Int))
  projection : Option Nat
  limit : Int
  cursor : GoStr
  cursorCodec : CursorCodec
  cursorErr : Option GoErr
  min : Option BsonD
  testError : Bool

/-- Model of `New`: a fresh query with the default codec. -/
def New (coll : GoStr) (query : Option Nat) : minQuery :=
  { coll := coll
    filter := query
    sort := none
    projection := none
    limit := 0
    cursor := []
    cursorCodec := DefaultCursorCodec
    cursorErr := none
    min := none
    testError := false }

/-- Field-by-field loop of `Sort`: empty names are skipped; a leading
plus (43) means ascending, a leading minus (45) descending. -/
def sortElems : List GoStr → List (GoStr × Int)
  | [] => []
  | f :: rest =>
    match f with
    | [] => sortElems rest
    | c :: f2 =>
      if c = 43 then (f2, 1) :: sortElems rest
      else if c = 45 then (f2, -1) :: sortElems rest
      else (c :: f2, 1) :: sortElems rest

/-- Model of `minQuery.Sort`: rebuilds the sort document from scratch. -/
def minQuery.Sort (mq : minQuery) (fields : List GoStr) : minQuery :=
  { mq with sort := some (sortElems fields) }

/-- Model of `minQuery.Select`. -/
def minQuery.Select (mq : minQuery) (selector : Option Nat) : minQuery :=
  { mq with projection := selector }

/-- Model of `minQuery.Limit`. -/
def minQuery.Limit (mq : minQuery) (n : Int) : minQuery :=
  { mq with limit := n }

/-- Model of `minQuery.Cursor`: a non-empty token is decoded right away
through the codec, storing both the seek boundary and any decode error;
an empty token clears both. -/
def minQuery.Cursor (mq : minQuery) (c : GoStr) : minQuery :=
  if c ≠ [] then
    { mq with
      cursor := c
      min := (mq.cursorCodec.ParseCursor c).1
      cursorErr := (mq.cursorCodec.ParseCursor c).2 }
  else
    { mq with cursor := c, min := none, cursorErr := none }

/-- Model of `minQuery.CursorCodec`. -/
def minQuery.CursorCodec (mq : minQuery) (cc : CursorCodec) : minQuery :=
  { mq with cursorCodec := cc }

/-- Command field name `find`. -/
def fFind : GoStr := [102, 105, 110, 100]

/-- Command field name `singleBatch`. -/
def fSingleBatch : GoStr := [115, 105, 110, 103, 108, 101, 66, 97, 116, 99, 104]

/-- Command field name `limit`. -/
def fLimit : GoStr := [108, 105, 109, 105, 116]

/-- Command field name `batchSize`. -/
def fBatchSize : GoStr := [98, 97, 116, 99, 104, 83, 105, 122, 101]

/-- Command field name `filter`. -/
def fFilter : GoStr := [102, 105, 108, 116, 101, 114]

/-- Command field name `sort`. -/
def fSort : GoStr := [115, 111, 114, 116]

/-- Command field name `projection`. -/
def fProjection : GoStr := [112, 114, 111, 106, 101, 99, 116, 105, 111, 110]

/-- Command field name `skip`. -/
def fSkip : GoStr := [115, 107, 105, 112]

/-- Command field name `min`. -/
def fMin : GoStr := [109, 105, 110]

/-- Two's-complement wrap of Go's 64-bit signed integer arithmetic:
maps an integer to its representative in `[-2^63, 2^63)`. Go's
`queryLimit++` wraps at the top of the int range, so the increment of
the limit is taken through this function. -/
def wrap64 (i : Int) : Int :=
  (i + 9223372036854775808) % 18446744073709551616 - 9223372036854775808

/-- Construction of the `find` command document, lines 189-216 of
`minquery.go`: `limit` and `batchSize` are set to the 64-bit wrapped
value of `limit + 1` exactly when a positive limit is set (Go's
`queryLimit++` wraps at `limit = 2^63 - 1`); `skip` of one together
with `min` is added exactly when a seek boundary exists. -/
def buildCmd (mq : minQuery) : List (GoStr × CmdVal) :=
  [(fFind, .str mq.coll), (fSingleBatch, .bool true)] ++
  (if 0 < mq.limit then
    [(fLimit, .int (wrap64 (mq.limit + 1))), (fBatchSize, .int (wrap64 (mq.limit + 1)))]
  else []) ++
  (match mq.filter with
    | some f => [(fFilter, .opq f)]
    | none => []) ++
  (match mq.sort with
    | some s => [(fSort, .sortSpec s)]
    | none => []) ++
  (match mq.projection with
    | some p => [(fProjection, .opq p)]
    | none => []) ++
  (match mq.min with
    | some m => [(fSkip, .int 1), (fMin, .doc m)]
    | none => [])

/-- Decoding of one raw reply document into `bson.M`. -/
def rawUnmarshal : RawDoc → Option Doc
  | .corrupt => none
  | .doc d => some d

/-- Lookup in a `bson.M` document: a missing field yields a nil
interface value, modelled as `null`. -/
def getField : Doc → GoStr → BVal
  | [], _ => .null
  | (k, v) :: rest, n => if k = n then v else getField rest n

/-- Line 254 of `minquery.go`: `cf[0]` is read unconditionally, so an
empty field name is a runtime index-out-of-range panic, modelled as
`none`. A leading minus (45) or plus (43) is stripped. -/
def stripDirMarker : GoStr → Option GoStr
  | [] => none
  | c :: rest => if c = 45 ∨ c = 43 then some rest else some (c :: rest)

/-- Loop of lines 251-258: cursor data is built from the defining
document using the cursor field names in order, after stripping
direction markers; `none` models the panic on an empty field name. -/
def buildCursorData (doc : Doc) : List GoStr → Option BsonD
  | [] => some []
  | cf :: rest =>
    match stripDirMarker cf with
    | none => none
    | some cf2 =>
      match buildCursorData doc rest with
      | none => none
      | some tail => some ((cf2, getField doc cf2) :: tail)

/-- Model of `mgo.Iter.All` over a reply batch: documents decode in
order until the first corrupt one, which ends iteration and surfaces a
decode error from `Close`. -/
def iterNextAll : List RawDoc → List Doc × Option GoErr
  | [] => ([], none)
  | .corrupt :: _ => ([], some .resultCorrupt)
  | .doc d :: rest => ((d :: (iterNextAll rest).1), (iterNextAll rest).2)

/-- Model of `allButLast` (lines 148-178): same consumption as
`Iter.All`, but the final slice keeps all but the last decoded
document. -/
def allButLast (batch : List RawDoc) : List Doc × Option GoErr :=
  ((iterNextAll batch).1.dropLast, (iterNextAll batch).2)

/-- Look-ahead test of line 236: there are more results exactly when a
positive limit is set and the reply holds at least `queryLimit`
documents, where `queryLimit` is the 64-bit wrapped value of
`limit + 1` (at `limit = 2^63 - 1` the increment wraps to `-2^63`). -/
def hasMoreOf (limit : Int) (count : Nat) : Bool :=
  decide (0 < limit) && decide (wrap64 (limit + 1) ≤ (count : Int))

/-- Final unmarshalling step of `All` (lines 271-276): with a look-ahead
document present the batch minus its last element is delivered,
otherwise the whole batch. -/
def deliver (cursor : GoStr) (hasMore : Bool) (batch : List RawDoc) : Outcome :=
  if hasMore then
    .ret cursor (allButLast batch).2 true (some (allButLast batch).1)
  else
    .ret cursor (iterNextAll batch).2 false (some (iterNextAll batch).1)

/-- Model of `minQuery.All` (lines 181-278). A deferred cursor decode
error fails the call before the command is issued. Otherwise the
command built by `buildCmd` is run through the oracle; on a non-empty
batch the look-ahead test fixes `hasMore`, and when cursor fields were
given a cursor is derived from the last document the caller will see
(index `count - 1 - offset`, offset one when the look-ahead is
present); an empty batch echoes the input cursor back. -/
def minQuery.All (mq : minQuery) (dbRun : List (GoStr × CmdVal) → DBResp)
    (cursorFields : List GoStr) : Outcome :=
  match mq.cursorErr with
  | some e => .ret [] (some e) false none
  | none =>
    match dbRun (buildCmd mq) with
    | .fail e => .ret [] (some e) false none
    | .ok firstBatch =>
      if 0 < firstBatch.length then
        if 0 < cursorFields.length then
          match rawUnmarshal (firstBatch.getD
              (firstBatch.length - 1 -
                (if hasMoreOf mq.limit firstBatch.length then 1 else 0)) .corrupt) with
          | none =>
            .ret [] (some (if mq.testError then .testErr else .resultCorrupt))
              (hasMoreOf mq.limit firstBatch.length) none
          | some doc =>
            if mq.testError then
              .ret [] (some .testErr) (hasMoreOf mq.limit firstBatch.length) none
            else
              match buildCursorData doc cursorFields with
              | none => .panicked
              | some cursorData =>
                match mq.cursorCodec.CreateCursor cursorData with
                | (tok, some e) =>
                  .ret tok (some e) (hasMoreOf mq.limit firstBatch.length) none
                | (tok, none) =>
                  deliver tok (hasMoreOf mq.limit firstBatch.length) firstBatch
        else
          deliver [] (hasMoreOf mq.limit firstBatch.length) firstBatch
      else
        deliver mq.cursor false firstBatch

/-- Well-formed field name: bytes below 256, no embedded zero byte. -/
def wfName (n : GoStr) : Prop := (∀ b ∈ n, b < 256) ∧ ¬ (0 ∈ n)

/-- Well-formed cursor value: a Go `int` within the int32 range (the
range mgo marshals losslessly as BSON int32), an `int64` or datetime
within the int64 range, a string of bytes with a length fitting the
int32 length field, or null. -/
def wfVal : BVal → Prop
  | .int v => -2147483648 ≤ v ∧ v < 2147483648
  | .int64 v => -9223372036854775808 ≤ v ∧ v < 9223372036854775808
  | .datetime v => -9223372036854775808 ≤ v ∧ v < 9223372036854775808
  | .str s => (∀ b ∈ s, b < 256) ∧ (s.length : Int) + 1 < 2147483648
  | .null => True

/-- Well-formed index entry: well-formed names and values, and a total
marshalled size fitting the int32 length prefix. -/
def wfEntry (e : BsonD) : Prop :=
  (∀ p ∈ e, wfName p.1 ∧ wfVal p.2) ∧ ((bsonMarshal e).length : Int) < 2147483648

instance : DecidablePred wfName := fun n => by
  unfold wfName; infer_instance

instance : DecidablePred wfVal := fun v => by
  cases v <;> (unfold wfVal; infer_instance)

instance : DecidablePred wfEntry := fun e => by
  unfold wfEntry; infer_instance

/-- Base query value used to instantiate the theorems at concrete
inputs. -/
def mq0 : minQuery := New [] none

/-! Lemmas about the base64 model. -/

theorem bToSix_sixToB_fin : ∀ v : Fin 64, bToSix (sixToB v.val) = some v.val := by decide

theorem bToSix_sixToB {v : Nat} (h : v < 64) : bToSix (sixToB v) = some v :=
  bToSix_sixToB_fin ⟨v, h⟩

theorem sixToB_ge (v : Nat) : 45 ≤ sixToB v := by
  unfold sixToB
  repeat' split
  all_goals omega

theorem mem_b64encode (bs : List Nat) : ∀ a ∈ b64encode bs, 45 ≤ a := by
  induction bs using b64encode.induct with
  | case1 => simp [b64encode]
  | case2 b1 =>
    intro a ha
    simp only [b64encode, List.mem_cons, List.not_mem_nil, or_false] at ha
    rcases ha with h | h <;> (subst h; exact sixToB_ge _)
  | case3 b1 b2 =>
    intro a ha
    simp only [b64encode, List.mem_cons, List.not_mem_nil, or_false] at ha
    rcases ha with h | h | h <;> (subst h; exact sixToB_ge _)
  | case4 b1 b2 b3 rest ih =>
    intro a ha
    simp only [b64encode, List.mem_cons] at ha
    rcases ha with h | h | h | h | h
    · subst h; exact sixToB_ge _
    · subst h; exact sixToB_ge _
    · subst h; exact sixToB_ge _
    · subst h; exact sixToB_ge _
    · exact ih a h

theorem b64decode_encode_eq_core (bs : List Nat) :
    b64decode (b64encode bs) = b64decodeCore (b64encode bs) := by
  unfold b64decode
  congr 1
  apply List.filter_eq_self.mpr
  intro a ha
  have h45 := mem_b64encode bs a ha
  simp only [Bool.and_eq_true, Bool.not_eq_true', Bool.or_eq_false_iff, beq_eq_false_iff_ne,
    ne_eq, Bool.not_eq_true, Bool.or_eq_true, beq_iff_eq]
  omega

theorem b64decodeCore_encode (bs : List Nat) (h : ∀ b ∈ bs, b < 256) :
    b64decodeCore (b64encode bs) = some bs := by
  induction bs using b64encode.induct with
  | case1 => rfl
  | case2 b1 =>
    have hb1 : b1 < 256 := h b1 (by simp)
    have h1 : b1 / 4 < 64 := by omega
    have h2 : b1 % 4 * 16 < 64 := by omega
    simp only [b64encode, b64decodeCore, bToSix_sixToB h1, bToSix_sixToB h2]
    simp
    all_goals omega
  | case3 b1 b2 =>
    have hb1 : b1 < 256 := h b1 (by simp)
    have hb2 : b2 < 256 := h b2 (by simp)
    have h1 : b1 / 4 < 64 := by omega
    have h2 : b1 % 4 * 16 + b2 / 16 < 64 := by omega
    have h3 : b2 % 16 * 4 < 64 := by omega
    simp only [b64encode, b64decodeCore, bToSix_sixToB h1, bToSix_sixToB h2, bToSix_sixToB h3]
    simp
    all_goals omega
  | case4 b1 b2 b3 rest ih =>
    have hb1 : b1 < 256 := h b1 (by simp)
    have hb2 : b2 < 256 := h b2 (by simp)
    have hb3 : b3 < 256 := h b3 (by simp)
    have hrest : ∀ b ∈ rest, b < 256 := fun b hb => h b (by simp [hb])
    have h1 : b1 / 4 < 64 := by omega
    have h2 : b1 % 4 * 16 + b2 / 16 < 64 := by omega
    have h3 : b2 % 16 * 4 + b3 / 64 < 64 := by omega
    have h4 : b3 % 64 < 64 := by omega
    simp only [b64encode, b64decodeCore, bToSix_sixToB h1, bToSix_sixToB h2, bToSix_sixToB h3,
      bToSix_sixToB h4, ih hrest]
    simp
    all_goals omega

theorem b64decode_encode (bs : List Nat) (h : ∀ b ∈ bs, b < 256) :
    b64decode (b64encode bs) = some bs := by
  rw [b64decode_encode_eq_core, b64decodeCore_encode bs h]

/-! Lemmas about the BSON model. -/

theorem parseInt32le_int32bytes (i : Int) (rest : List Nat)
    (h1 : -2147483648 ≤ i) (h2 : i < 2147483648) :
    parseInt32le (int32bytes i ++ rest) = some (i, rest) := by
  have hmod0 : 0 ≤ i % 4294967296 := Int.emod_nonneg i (by norm_num)
  have hmodlt : i % 4294967296 < 4294967296 := Int.emod_lt_of_pos i (by norm_num)
  have hu : ((i % 4294967296).toNat : Int) = i % 4294967296 := Int.toNat_of_nonneg hmod0
  simp only [int32bytes, parseInt32le, List.cons_append, List.nil_append]
  split <;> simp only [Option.some.injEq, Prod.mk.injEq, and_true] <;> omega

theorem parseInt64le_int64bytes (i : Int) (rest : List Nat)
    (h1 : -9223372036854775808 ≤ i) (h2 : i < 9223372036854775808) :
    parseInt64le (int64bytes i ++ rest) = some (i, rest) := by
  have hmod0 : 0 ≤ i % 18446744073709551616 := Int.emod_nonneg i (by norm_num)
  have hmodlt : i % 18446744073709551616 < 18446744073709551616 :=
    Int.emod_lt_of_pos i (by norm_num)
  have hu : ((i % 18446744073709551616).toNat : Int) = i % 18446744073709551616 :=
    Int.toNat_of_nonneg hmod0
  simp only [int64bytes, parseInt64le, List.cons_append, List.nil_append]
  split <;> simp only [Option.some.injEq, Prod.mk.injEq, and_true] <;> omega

theorem parseCString_append (n : GoStr) (rest : List Nat) (h : ¬ 0 ∈ n) :
    parseCString (n ++ 0 :: rest) = some (n, rest) := by
  induction n with
  | nil => rfl
  | cons b n ih =>
    simp only [List.mem_cons, not_or] at h
    obtain ⟨hb, hn⟩ := h
    obtain ⟨k, rfl⟩ : ∃ k, b = k + 1 := ⟨b - 1, by omega⟩
    simp only [List.cons_append, parseCString]
    rw [show List.append n (0 :: rest) = n ++ 0 :: rest from rfl, ih hn]

theorem parseVal_int32 (v : Int) (rest : List Nat)
    (h1 : -2147483648 ≤ v) (h2 : v < 2147483648) :
    parseVal 16 (int32bytes v ++ rest) = some (.int v, rest) := by
  simp [parseVal, parseInt32le_int32bytes v rest h1 h2]

theorem parseVal_int64 (v : Int) (rest : List Nat)
    (h1 : -9223372036854775808 ≤ v) (h2 : v < 9223372036854775808) :
    parseVal 18 (int64bytes v ++ rest) = some (.int64 v, rest) := by
  simp [parseVal, parseInt64le_int64bytes v rest h1 h2]

theorem parseVal_datetime (v : Int) (rest : List Nat)
    (h1 : -9223372036854775808 ≤ v) (h2 : v < 9223372036854775808) :
    parseVal 9 (int64bytes v ++ rest) = some (.datetime v, rest) := by
  simp [parseVal, parseInt64le_int64bytes v rest h1 h2]

theorem parseVal_null (rest : List Nat) : parseVal 10 rest = some (.null, rest) := rfl

theorem parseVal_str (s : GoStr) (rest : List Nat) (h : (s.length : Int) + 1 < 2147483648) :
    parseVal 2 (int32bytes ((s.length : Int) + 1) ++ (s ++ 0 :: rest)) =
      some (.str s, rest) := by
  have hp := parseInt32le_int32bytes ((s.length : Int) + 1) (s ++ 0 :: rest) (by omega) h
  have hc1 : (1 : Int) ≤ (s.length : Int) + 1 := by omega
  have hc2 : (s.length : Int) + 1 ≤ ((s ++ 0 :: rest).length : Int) := by
    simp only [List.length_append, List.length_cons]
    push_cast
    omega
  have hn : ((s.length : Int) + 1 - 1).toNat = s.length := by omega
  simp only [parseVal, hp]
  rw [if_pos ⟨hc1, hc2⟩, hn, List.drop_left s (0 :: rest), List.take_left s (0 :: rest)]

theorem parseElems_encElems (d : BsonD) (hwf : ∀ p ∈ d, wfName p.1 ∧ wfVal p.2) :
    ∀ (fuel : Nat) (rest : List Nat), d.length ≤ fuel →
      parseElems fuel (encElems d ++ 0 :: rest) = some (d, rest) := by
  induction d with
  | nil => intro fuel rest _; cases fuel <;> rfl
  | cons p tl ih =>
    intro fuel rest hfuel
    obtain ⟨⟨hnb, hn0⟩, hv⟩ := hwf p (by simp)
    have hwtl : ∀ q ∈ tl, wfName q.1 ∧ wfVal q.2 := fun q hq => hwf q (by simp [hq])
    obtain ⟨fuel, rfl⟩ : ∃ k, fuel = k + 1 := ⟨fuel - 1, by simp at hfuel; omega⟩
    have hfuel2 : tl.length ≤ fuel := by simp at hfuel; omega
    have ihtl := ih hwtl fuel rest hfuel2
    obtain ⟨n, v⟩ := p
    cases v with
    | int v =>
      simp only [wfVal] at hv
      simp only [encElems, encElem, if_pos hv, List.cons_append, List.append_assoc,
        List.singleton_append, List.nil_append]
      simp only [parseElems, parseCString_append n _ hn0,
        parseVal_int32 v _ hv.1 hv.2, ihtl]
    | int64 v =>
      simp only [wfVal] at hv
      simp only [encElems, encElem, List.cons_append, List.append_assoc,
        List.singleton_append, List.nil_append]
      simp only [parseElems, parseCString_append n _ hn0,
        parseVal_int64 v _ hv.1 hv.2, ihtl]
    | str s =>
      simp only [wfVal] at hv
      simp only [encElems, encElem, List.cons_append, List.append_assoc,
        List.singleton_append, List.nil_append]
      simp only [parseElems, parseCString_append n _ hn0,
        parseVal_str s _ hv.2, ihtl]
    | datetime v =>
      simp only [wfVal] at hv
      simp only [encElems, encElem, List.cons_append, List.append_assoc,
        List.singleton_append, List.nil_append]
      simp only [parseElems, parseCString_append n _ hn0,
        parseVal_datetime v _ hv.1 hv.2, ihtl]
    | null =>
      simp only [encElems, encElem, List.cons_append, List.append_assoc,
        List.singleton_append, List.nil_append]
      simp only [parseElems, parseCString_append n _ hn0, parseVal_null, ihtl]

theorem encElem_length_pos (p : GoStr × BVal) : 0 < (encElem p).length := by
  obtain ⟨n, v⟩ := p
  cases v with
  | int v =>
    simp only [encElem]
    split <;> simp
  | int64 v => simp [encElem]
  | str s => simp [encElem]
  | datetime v => simp [encElem]
  | null => simp [encElem]

theorem length_le_encElems (d : BsonD) : d.length ≤ (encElems d).length := by
  induction d with
  | nil => simp [encElems]
  | cons p tl ih =>
    have := encElem_length_pos p
    simp only [encElems, List.length_append, List.length_cons]
    omega

theorem bsonUnmarshal_bsonMarshal (d : BsonD) (h : wfEntry d) :
    bsonUnmarshal (bsonMarshal d) = some d := by
  obtain ⟨hwf, hlen⟩ := h
  have hmlen : (bsonMarshal d).length = (encElems d).length + 5 := by
    simp [bsonMarshal, int32bytes]
  have hlen2 : ((encElems d).length : Int) + 5 < 2147483648 := by
    rw [hmlen] at hlen; push_cast at hlen ⊢; omega
  have hsplit : bsonMarshal d =
      int32bytes (((encElems d).length : Int) + 5) ++ (encElems d ++ 0 :: []) := by
    simp [bsonMarshal, List.append_assoc]
  have hp := parseInt32le_int32bytes (((encElems d).length : Int) + 5)
    (encElems d ++ 0 :: []) (by omega) (by omega)
  have hc : ((encElems d).length : Int) + 5 =
      ((int32bytes (((encElems d).length : Int) + 5) ++ (encElems d ++ 0 :: [])).length : Int) := by
    simp [int32bytes]; omega
  have hfuel : d.length ≤ (int32bytes (((encElems d).length : Int) + 5) ++
      (encElems d ++ 0 :: [])).length := by
    have := length_le_encElems d
    simp [int32bytes]; omega
  rw [hsplit]
  simp only [bsonUnmarshal, hp]
  rw [if_pos hc, parseElems_encElems d hwf _ [] hfuel]

theorem int32bytes_lt (i : Int) : ∀ b ∈ int32bytes i, b < 256 := by
  intro b hb
  simp only [int32bytes, List.mem_cons, List.not_mem_nil, or_false] at hb
  rcases hb with h | h | h | h <;> omega

theorem int64bytes_lt (i : Int) : ∀ b ∈ int64bytes i, b < 256 := by
  intro b hb
  simp only [int64bytes, List.mem_cons, List.not_mem_nil, or_false] at hb
  rcases hb with h | h | h | h | h | h | h | h <;> omega

theorem encElem_lt (p : GoStr × BVal) (h : wfName p.1 ∧ wfVal p.2) :
    ∀ b ∈ encElem p, b < 256 := by
  obtain ⟨n, v⟩ := p
  obtain ⟨⟨hnb, _⟩, hv⟩ := h
  simp only at hnb
  intro b hb
  cases v with
  | int v =>
    simp only [encElem] at hb
    split at hb <;>
      (simp only [List.mem_cons, List.mem_append, List.not_mem_nil, or_false] at hb
       casesm* _ ∨ _ <;>
         first
           | omega
           | exact hnb b ‹_›
           | exact int32bytes_lt v b ‹_›
           | exact int64bytes_lt v b ‹_›)
  | int64 v =>
    simp only [encElem, List.mem_cons, List.mem_append, List.not_mem_nil, or_false] at hb
    casesm* _ ∨ _ <;>
      first
        | omega
        | exact hnb b ‹_›
        | exact int64bytes_lt v b ‹_›
  | str s =>
    simp only [wfVal] at hv
    simp only [encElem, List.mem_cons, List.mem_append, List.not_mem_nil, or_false] at hb
    casesm* _ ∨ _ <;>
      first
        | omega
        | exact hnb b ‹_›
        | exact int32bytes_lt _ b ‹_›
        | exact hv.1 b ‹_›
  | datetime v =>
    simp only [encElem, List.mem_cons, List.mem_append, List.not_mem_nil, or_false] at hb
    casesm* _ ∨ _ <;>
      first
        | omega
        | exact hnb b ‹_›
        | exact int64bytes_lt v b ‹_›
  | null =>
    simp only [encElem, List.mem_cons, List.mem_append, List.not_mem_nil, or_false] at hb
    casesm* _ ∨ _ <;> first | omega | exact hnb b ‹_›

theorem encElems_lt (d : BsonD) (h : ∀ p ∈ d, wfName p.1 ∧ wfVal p.2) :
    ∀ b ∈ encElems d, b < 256 := by
  induction d with
  | nil => simp [encElems]
  | cons p tl ih =>
    intro b hb
    simp only [encElems, List.mem_append] at hb
    rcases hb with hb | hb
    · exact encElem_lt p (h p (by simp)) b hb
    · exact ih (fun q hq => h q (by simp [hq])) b hb

theorem bsonMarshal_lt (d : BsonD) (h : wfEntry d) : ∀ b ∈ bsonMarshal d, b < 256 := by
  intro b hb
  simp only [bsonMarshal, List.mem_append, List.mem_cons, List.not_mem_nil, or_false] at hb
  rcases hb with (hb | hb) | hb
  · exact int32bytes_lt _ b hb
  · exact encElems_lt d h.1 b hb
  · omega

theorem b64decodeCore_invalid : ∀ cs : List Nat, (∃ b ∈ cs, bToSix b = none) →
    b64decodeCore cs = none
  | [], h => by simp at h
  | [_], _ => rfl
  | [c1, c2], h => by
    rcases h with ⟨b, hmem, hnone⟩
    simp only [List.mem_cons, List.not_mem_nil, or_false] at hmem
    rcases hmem with h | h <;> rw [h] at hnone <;>
      (cases h1 : bToSix c1 <;> cases h2 : bToSix c2 <;> simp_all [b64decodeCore])
  | [c1, c2, c3], h => by
    rcases h with ⟨b, hmem, hnone⟩
    simp only [List.mem_cons, List.not_mem_nil, or_false] at hmem
    rcases hmem with h | h | h <;> rw [h] at hnone <;>
      (cases h1 : bToSix c1 <;> cases h2 : bToSix c2 <;> cases h3 : bToSix c3 <;>
        simp_all [b64decodeCore])
  | c1 :: c2 :: c3 :: c4 :: rest, h => by
    rcases h with ⟨b, hmem, hnone⟩
    simp only [List.mem_cons] at hmem
    rcases hmem with h | h | h | h | hmem
    · rw [h] at hnone
      cases h1 : bToSix c1 <;> cases h2 : bToSix c2 <;> cases h3 : bToSix c3 <;>
        cases h4 : bToSix c4 <;> cases h5 : b64decodeCore rest <;> simp_all [b64decodeCore]
    · rw [h] at hnone
      cases h1 : bToSix c1 <;> cases h2 : bToSix c2 <;> cases h3 : bToSix c3 <;>
        cases h4 : bToSix c4 <;> cases h5 : b64decodeCore rest <;> simp_all [b64decodeCore]
    · rw [h] at hnone
      cases h1 : bToSix c1 <;> cases h2 : bToSix c2 <;> cases h3 : bToSix c3 <;>
        cases h4 : bToSix c4 <;> cases h5 : b64decodeCore rest <;> simp_all [b64decodeCore]
    · rw [h] at hnone
      cases h1 : bToSix c1 <;> cases h2 : bToSix c2 <;> cases h3 : bToSix c3 <;>
        cases h4 : bToSix c4 <;> cases h5 : b64decodeCore rest <;> simp_all [b64decodeCore]
    · have hr := b64decodeCore_invalid rest ⟨b, hmem, hnone⟩
      cases h1 : bToSix c1 <;> cases h2 : bToSix c2 <;> cases h3 : bToSix c3 <;>
        cases h4 : bToSix c4 <;> simp_all [b64decodeCore]

theorem b64decode_invalid (c : List Nat)
    (h : ∃ b ∈ c, b ≠ 13 ∧ b ≠ 10 ∧ bToSix b = none) : b64decode c = none := by
  rcases h with ⟨b, hmem, h13, h10, hnone⟩
  apply b64decodeCore_invalid
  refine ⟨b, List.mem_filter.mpr ⟨hmem, ?_⟩, hnone⟩
  simp [h13, h10]

/-! Claim theorems for the cursor codec. -/

/-- Claim C1, counterexample: the round-trip law fails as stated for a
well-formed entry holding a Go `int` value just beyond the int32 range:
the default codec brings the value back as a Go `int64`, so the decoded
entry is value-equal but not type-equal to the original. -/
theorem create_parse_int_counterexample :
    ParseCursor (CreateCursor [([97], BVal.int 2147483648)]) =
      (some [([97], BVal.int64 2147483648)], none) ∧
    some [([97], BVal.int64 2147483648)] ≠ some [([97], BVal.int 2147483648)] := by
  constructor
  · decide
  · decide

/-- Claim C1, amended: for every well-formed index entry (integer values
typed `int` within the int32 range, `int64` and millisecond datetime
values of any 64-bit size, byte strings, null, in any field order), the
default codec satisfies `ParseCursor (CreateCursor e) = e`, preserving
field order, value and value type, with no error. -/
theorem parse_create_roundTrip (e : BsonD) (h : wfEntry e) :
    ParseCursor (CreateCursor e) = (some e, none) := by
  simp only [ParseCursor, CreateCursor, b64decode_encode _ (bsonMarshal_lt e h),
    bsonUnmarshal_bsonMarshal e h]

/-- Witness for the amended round-trip law at a concrete entry mixing an
integer, a string and a datetime. -/
theorem parse_create_roundTrip_witness :
    wfEntry [([97], BVal.int 1), ([98], BVal.str [50]), ([99], BVal.datetime 946684800000)] ∧
    ParseCursor (CreateCursor
        [([97], BVal.int 1), ([98], BVal.str [50]), ([99], BVal.datetime 946684800000)]) =
      (some [([97], BVal.int 1), ([98], BVal.str [50]), ([99], BVal.datetime 946684800000)],
        none) :=
  ⟨by decide, parse_create_roundTrip _ (by decide)⟩

/-- Claim C8, counterexample: a token containing a byte outside the
URL-safe base64 alphabet need not be rejected: Go's base64 decoder
ignores newline (10) and carriage-return (13) bytes, so a valid token
with a newline inserted still parses successfully. -/
theorem parseCursor_newline_counterexample :
    10 ∈ (10 :: CreateCursor [([97], BVal.int 1)]) ∧
    bToSix 10 = none ∧
    ParseCursor (10 :: CreateCursor [([97], BVal.int 1)]) =
      (some [([97], BVal.int 1)], none) := by
  refine ⟨by simp, by decide, by decide⟩

/-- Claim C8, amended: the default codec's `ParseCursor` rejects every
token containing a byte outside the unpadded URL-safe base64 alphabet
other than CR and LF (which the decoder ignores), and rejects every
token whose decoded bytes do not parse as a well-formed BSON ordered
tuple. -/
theorem parseCursor_rejects_invalid (c : GoStr) :
    ((∃ b ∈ c, b ≠ 13 ∧ b ≠ 10 ∧ bToSix b = none) →
      ParseCursor c = (none, some .base64Corrupt)) ∧
    (∀ bs, b64decode c = some bs → bsonUnmarshal bs = none →
      ParseCursor c = (none, some .bsonCorrupt)) := by
  constructor
  · intro h
    simp only [ParseCursor, b64decode_invalid c h]
  · intro bs h1 h2
    simp only [ParseCursor, h1, h2]

/-- Witness for the rejection theorem: the token of the repository's own
test containing bytes outside the alphabet is rejected, and a token
decoding to a single byte (not a BSON document) is rejected. -/
theorem parseCursor_rejects_invalid_witness :
    ParseCursor [37, 94, 38] = (none, some .base64Corrupt) ∧
    ParseCursor [65, 81] = (none, some .bsonCorrupt) :=
  ⟨(parseCursor_rejects_invalid [37, 94, 38]).1 (by decide),
   (parseCursor_rejects_invalid [65, 81]).2 [1] (by decide) (by decide)⟩

/-! Lemmas about the execution model. -/

theorem wrap64_eq (i : Int) (h1 : -9223372036854775808 ≤ i)
    (h2 : i < 9223372036854775808) : wrap64 i = i := by
  unfold wrap64
  omega

theorem hasMoreOf_nonpos (limit : Int) (n : Nat) (h : limit ≤ 0) :
    hasMoreOf limit n = false := by
  unfold hasMoreOf
  rw [decide_eq_false (by omega : ¬ 0 < limit), Bool.false_and]

theorem buildCursorData_empty_mem (d : Doc) : ∀ cf : List GoStr, [] ∈ cf →
    buildCursorData d cf = none := by
  intro cf
  induction cf with
  | nil => intro h; simp at h
  | cons f rest ih =>
    intro hmem
    rcases List.mem_cons.mp hmem with h | h
    · rw [← h]
      rfl
    · simp only [buildCursorData]
      cases hs : stripDirMarker f with
      | none => simp
      | some cf2 => simp [ih h]

theorem allRetHasMore (mq : minQuery) (dbRun : List (GoStr × CmdVal) → DBResp)
    (cf : List GoStr) (batch : List RawDoc) (c : GoStr) (e : Option GoErr)
    (h : Bool) (dl : Option (List Doc))
    (hc : mq.cursorErr = none) (hdb : dbRun (buildCmd mq) = .ok batch)
    (hne : batch ≠ [])
    (hall : mq.All dbRun cf = .ret c e h dl) :
    h = hasMoreOf mq.limit batch.length := by
  have hlen : 0 < batch.length := List.length_pos.mpr hne
  unfold minQuery.All deliver at hall
  repeat' split at hall
  all_goals cases hall
  all_goals simp_all [hasMoreOf]

/-! Claim theorems for the execution algorithm. -/

/-- Claim C2, counterexample: at the maximum limit `2^63 - 1` the
`queryLimit++` increment of line 197 wraps to `-2^63`, so line 236's
comparison holds for any non-empty batch: a single-document batch
reports `hasMore = true` even though one document is far fewer than
`limit + 1`, falsifying the claimed equivalence. -/
theorem all_hasMore_overflow_counterexample :
    minQuery.All { mq0 with limit := 9223372036854775807 }
      (fun _ => DBResp.ok [RawDoc.doc []]) [] = .ret [] none true (some []) ∧
    ¬(0 < (9223372036854775807 : Int) →
      (9223372036854775807 : Int) + 1 ≤ (([RawDoc.doc []] : List RawDoc).length : Int)) := by
  constructor
  · decide
  · decide

/-- Claim C2, amended: on a completed execution of `All` (no deferred
cursor error, successful round trip) with a non-empty batch and a limit
below `2^63 - 1` (so the look-ahead increment does not wrap), `hasMore`
is true exactly when a positive limit is set and the returned batch
holds at least `limit + 1` documents; in particular a batch of exactly
`limit` documents reports `hasMore = false`. At limit `2^63 - 1` the
increment wraps and `hasMore` is true for every non-empty batch. -/
theorem all_hasMore_iff (mq : minQuery) (dbRun : List (GoStr × CmdVal) → DBResp)
    (cf : List GoStr) (batch : List RawDoc) (c : GoStr) (e : Option GoErr)
    (h : Bool) (dl : Option (List Doc))
    (hc : mq.cursorErr = none) (hdb : dbRun (buildCmd mq) = .ok batch)
    (hne : batch ≠ [])
    (hlim : mq.limit < 9223372036854775807)
    (hall : mq.All dbRun cf = .ret c e h dl) :
    (h = true ↔ 0 < mq.limit ∧ mq.limit + 1 ≤ (batch.length : Int)) ∧
    ((batch.length : Int) = mq.limit → h = false) := by
  have hh := allRetHasMore mq dbRun cf batch c e h dl hc hdb hne hall
  subst hh
  by_cases hpos : 0 < mq.limit
  · have hw : wrap64 (mq.limit + 1) = mq.limit + 1 := wrap64_eq _ (by omega) (by omega)
    constructor
    · simp [hasMoreOf, hw]
    · intro hlen
      simp only [hasMoreOf, hw, Bool.and_eq_false_iff, decide_eq_false_iff_not]
      omega
  · constructor
    · rw [hasMoreOf_nonpos _ _ (by omega)]
      simp
      omega
    · intro _
      exact hasMoreOf_nonpos _ _ (by omega)

/-- Witness for the amended hasMore law: limit 2 with a batch of
exactly 2 documents reports no more results. -/
theorem all_hasMore_iff_witness :
    (false = true ↔ 0 < ({ mq0 with limit := 2 } : minQuery).limit ∧
      ({ mq0 with limit := 2 } : minQuery).limit + 1 ≤
        (([RawDoc.doc [], RawDoc.doc []] : List RawDoc).length : Int)) ∧
    ((([RawDoc.doc [], RawDoc.doc []] : List RawDoc).length : Int) =
      ({ mq0 with limit := 2 } : minQuery).limit → false = false) :=
  all_hasMore_iff { mq0 with limit := 2 }
    (fun _ => DBResp.ok [RawDoc.doc [], RawDoc.doc []]) []
    [RawDoc.doc [], RawDoc.doc []] [] none false (some [[], []])
    rfl rfl (by decide) (by decide) (by decide)

/-- Claim C4, counterexample: at the maximum limit `2^63 - 1` the
`queryLimit++` increment of line 197 wraps, so the issued command
carries `limit = batchSize = -2^63`, not `limit + 1`, falsifying the
claimed equality for every positive limit. -/
theorem buildCmd_limit_overflow_counterexample :
    (fLimit, CmdVal.int (-9223372036854775808)) ∈
      buildCmd { mq0 with limit := 9223372036854775807 } ∧
    (fBatchSize, CmdVal.int (-9223372036854775808)) ∈
      buildCmd { mq0 with limit := 9223372036854775807 } ∧
    (-9223372036854775808 : Int) ≠ (9223372036854775807 : Int) + 1 := by
  refine ⟨by decide, by decide, by decide⟩

/-- Claim C4, amended: with a positive limit `n` below `2^63 - 1` (so
the increment does not wrap), the issued command requests `n + 1`
documents in a single batch (`limit` and `batchSize` both equal `n + 1`,
`singleBatch` is true), and when a decoded seek boundary exists the
command additionally carries it as `min` together with `skip = 1`; at
`n = 2^63 - 1` the increment wraps and the command carries `-2^63`. -/
theorem buildCmd_limit_skip (mq : minQuery) (hl : 0 < mq.limit)
    (hlim : mq.limit < 9223372036854775807) :
    (fLimit, CmdVal.int (mq.limit + 1)) ∈ buildCmd mq ∧
    (fBatchSize, CmdVal.int (mq.limit + 1)) ∈ buildCmd mq ∧
    (fSingleBatch, CmdVal.bool true) ∈ buildCmd mq ∧
    ∀ m, mq.min = some m →
      (fSkip, CmdVal.int 1) ∈ buildCmd mq ∧ (fMin, CmdVal.doc m) ∈ buildCmd mq := by
  have hw : wrap64 (mq.limit + 1) = mq.limit + 1 := wrap64_eq _ (by omega) (by omega)
  unfold buildCmd
  rw [if_pos hl, hw]
  refine ⟨by simp, by simp, by simp, ?_⟩
  intro m hm
  rw [hm]
  constructor <;> simp

/-- Witness for the amended command-construction law at limit 3 with an
empty seek boundary document. -/
theorem buildCmd_limit_skip_witness :
    (fLimit, CmdVal.int (3 + 1)) ∈ buildCmd { mq0 with limit := 3, min := some [] } ∧
    (fBatchSize, CmdVal.int (3 + 1)) ∈ buildCmd { mq0 with limit := 3, min := some [] } ∧
    (fSingleBatch, CmdVal.bool true) ∈ buildCmd { mq0 with limit := 3, min := some [] } ∧
    (fSkip, CmdVal.int 1) ∈ buildCmd { mq0 with limit := 3, min := some [] } ∧
    (fMin, CmdVal.doc []) ∈ buildCmd { mq0 with limit := 3, min := some [] } := by
  have h := buildCmd_limit_skip { mq0 with limit := 3, min := some [] }
    (by decide) (by decide)
  exact ⟨h.1, h.2.1, h.2.2.1, (h.2.2.2 [] rfl).1, (h.2.2.2 [] rfl).2⟩

/-- Claim C5, counterexample: with no limit set but a seek boundary
present, the issued command still contains `skip = 1` and `min`: the
skip behavior is tied to the seek boundary, not to the limit, so the
claimed omission of the skip behavior on unlimited queries is false. -/
theorem buildCmd_skip_without_limit :
    ({ mq0 with min := some [] } : minQuery).limit ≤ 0 ∧
    (fSkip, CmdVal.int 1) ∈ buildCmd { mq0 with min := some [] } ∧
    (fMin, CmdVal.doc []) ∈ buildCmd { mq0 with min := some [] } :=
  ⟨by decide, by decide, by decide⟩

/-- Claim C5, amended: with no limit set (`limit ≤ 0`) the issued
command omits the look-ahead over-fetch (no `limit` or `batchSize`
field) and `hasMore` is always reported false; the skip behavior is
governed by the presence of a seek boundary, not by the limit. -/
theorem all_unlimited_no_lookahead (mq : minQuery) (hl : mq.limit ≤ 0) :
    (∀ v, (fLimit, v) ∉ buildCmd mq ∧ (fBatchSize, v) ∉ buildCmd mq) ∧
    ∀ dbRun cf c e h dl, mq.All dbRun cf = .ret c e h dl → h = false := by
  have hln : ¬ 0 < mq.limit := by omega
  constructor
  · intro v
    constructor <;>
      (intro hmem
       rcases hf : mq.filter with _ | f <;> rcases hs : mq.sort with _ | s <;>
         rcases hp : mq.projection with _ | p <;> rcases hm : mq.min with _ | m <;>
         simp_all [buildCmd, fLimit, fBatchSize, fFind, fSingleBatch, fFilter, fSort,
           fProjection, fSkip, fMin] <;>
         omega)
  · intro dbRun cf c e h dl hall
    rcases hce : mq.cursorErr with _ | e0
    · rcases hdbr : dbRun (buildCmd mq) with e0 | batch
      · simp only [minQuery.All, hce, hdbr] at hall
        cases hall
        rfl
      · by_cases hb : batch = []
        · subst hb
          simp [minQuery.All, hce, hdbr, deliver, iterNextAll] at hall
          simp_all
        · rw [allRetHasMore mq dbRun cf batch c e h dl hce hdbr hb hall,
            hasMoreOf_nonpos _ _ hl]
    · simp only [minQuery.All, hce] at hall
      cases hall
      rfl

/-- Witness for the amended no-limit law: with limit 0 the command holds
no limit field and a non-empty two-document reply still reports
`hasMore = false`. -/
theorem all_unlimited_no_lookahead_witness :
    ((fLimit, CmdVal.int 1) ∉ buildCmd mq0 ∧ (fBatchSize, CmdVal.int 1) ∉ buildCmd mq0) ∧
    false = false := by
  have h := all_unlimited_no_lookahead mq0 (by decide)
  exact ⟨h.1 (CmdVal.int 1),
    h.2 (fun _ => DBResp.ok [RawDoc.doc [], RawDoc.doc []]) [] [] none false (some [[], []])
      (by decide)⟩

/-- Claim C6: `Cursor` is total; it stores the token, decodes a
non-empty token immediately through the codec, storing seek boundary and
decode error instead of reporting the latter; an empty token clears
both; and with a stored decode error `All` returns exactly that error
with an empty cursor and `hasMore = false`, independently of the
database (nothing is issued). -/
theorem cursor_defers_decode_error (mq : minQuery) (c : GoStr) :
    (mq.Cursor c).cursor = c ∧
    (c ≠ [] → (mq.Cursor c).min = (mq.cursorCodec.ParseCursor c).1 ∧
      (mq.Cursor c).cursorErr = (mq.cursorCodec.ParseCursor c).2) ∧
    (c = [] → (mq.Cursor c).min = none ∧ (mq.Cursor c).cursorErr = none) ∧
    ∀ e dbRun dbRun2 cf, mq.cursorErr = some e →
      mq.All dbRun cf = .ret [] (some e) false none ∧
      mq.All dbRun cf = mq.All dbRun2 cf := by
  refine ⟨?_, ?_, ?_, ?_⟩
  · unfold minQuery.Cursor
    split <;> rfl
  · intro hne
    unfold minQuery.Cursor
    rw [if_pos hne]
    exact ⟨rfl, rfl⟩
  · intro he
    unfold minQuery.Cursor
    rw [if_neg (by simp [he])]
    exact ⟨rfl, rfl⟩
  · intro e dbRun dbRun2 cf hce
    refine ⟨?_, ?_⟩
    · simp only [minQuery.All, hce]
    · simp only [minQuery.All, hce]

/-- Witness for the deferred-error law: a stored decode error is
surfaced by `All` with empty cursor and no more results, whatever the
database would have answered. -/
theorem cursor_defers_decode_error_witness :
    (({ mq0 with cursorErr := some GoErr.testErr } : minQuery).Cursor [37]).min =
      (DefaultCursorCodec.ParseCursor [37]).1 ∧
    (({ mq0 with cursorErr := some GoErr.testErr } : minQuery).Cursor [37]).cursorErr =
      (DefaultCursorCodec.ParseCursor [37]).2 ∧
    ((mq0.Cursor []).min = none ∧ (mq0.Cursor []).cursorErr = none) ∧
    minQuery.All { mq0 with cursorErr := some GoErr.testErr } (fun _ => DBResp.ok []) [] =
      .ret [] (some GoErr.testErr) false none ∧
    minQuery.All { mq0 with cursorErr := some GoErr.testErr } (fun _ => DBResp.ok []) [] =
      minQuery.All { mq0 with cursorErr := some GoErr.testErr }
        (fun _ => DBResp.fail (GoErr.dbFail 0)) [] := by
  have h1 := (cursor_defers_decode_error
    { mq0 with cursorErr := some GoErr.testErr } [37]).2.1 (by decide)
  have h2 := (cursor_defers_decode_error mq0 []).2.2.1 rfl
  have h3 := (cursor_defers_decode_error
    { mq0 with cursorErr := some GoErr.testErr } [37]).2.2.2
    GoErr.testErr (fun _ => DBResp.ok []) (fun _ => DBResp.fail (GoErr.dbFail 0)) [] rfl
  exact ⟨h1.1, h1.2, h2, h3.1, h3.2⟩

/-- Claim C7: an empty reply batch makes `All` return exactly the cursor
token that was supplied as input to the call, with no error, no more
results and an empty slice, so repeated executions with an exhausted
cursor keep yielding an empty page and the identical token. -/
theorem all_empty_batch_stable (mq : minQuery) (dbRun : List (GoStr × CmdVal) → DBResp)
    (cf : List GoStr)
    (hc : mq.cursorErr = none) (hdb : dbRun (buildCmd mq) = .ok []) :
    mq.All dbRun cf = .ret mq.cursor none false (some []) := by
  simp [minQuery.All, hc, hdb, deliver, iterNextAll]

/-- Witness for the stable-exhaustion law at a non-empty input token. -/
theorem all_empty_batch_stable_witness :
    minQuery.All { mq0 with cursor := [120] } (fun _ => DBResp.ok []) [[97]] =
      .ret [120] none false (some []) :=
  all_empty_batch_stable { mq0 with cursor := [120] } (fun _ => DBResp.ok []) [[97]] rfl rfl

/-- Claim C9: reading the first byte of a cursor field name is
unconditional in `All`, so an execution reaching cursor derivation with
an empty cursor field name panics with an index out of range; `Sort`, by
contrast, skips empty field names. -/
theorem all_empty_field_panics (mq : minQuery) (dbRun : List (GoStr × CmdVal) → DBResp)
    (cf : List GoStr) (batch : List RawDoc) (d : Doc)
    (hc : mq.cursorErr = none) (hdb : dbRun (buildCmd mq) = .ok batch)
    (hne : batch ≠ [])
    (hdoc : batch.getD (batch.length - 1 -
      (if hasMoreOf mq.limit batch.length then 1 else 0)) .corrupt = .doc d)
    (hte : mq.testError = false)
    (hmem : [] ∈ cf) :
    mq.All dbRun cf = .panicked ∧
    ∀ fields, sortElems ([] :: fields) = sortElems fields := by
  refine ⟨?_, fun fields => rfl⟩
  have hlen : 0 < batch.length := List.length_pos.mpr hne
  have hcf : 0 < cf.length := List.length_pos.mpr (by rintro rfl; simp at hmem)
  simp only [minQuery.All, hc, hdb, if_pos hlen, if_pos hcf, hdoc, rawUnmarshal, hte,
    Bool.false_eq_true, if_false, buildCursorData_empty_mem d cf hmem]

/-- Witness for the empty-field panic at a one-document batch. -/
theorem all_empty_field_panics_witness :
    minQuery.All mq0 (fun _ => DBResp.ok [RawDoc.doc []]) [[]] = Outcome.panicked :=
  (all_empty_field_panics mq0 (fun _ => DBResp.ok [RawDoc.doc []]) [[]]
    [RawDoc.doc []] [] rfl rfl (by decide) (by decide) rfl (by decide)).1

/-- Claim C10: a non-empty batch with no cursor fields returns the empty
string as cursor, never the input token: the delivered slice and error
follow the look-ahead rule, but no next-page cursor is derived. -/
theorem all_no_cursorFields_empty_cursor (mq : minQuery)
    (dbRun : List (GoStr × CmdVal) → DBResp) (batch : List RawDoc)
    (hc : mq.cursorErr = none) (hdb : dbRun (buildCmd mq) = .ok batch)
    (hne : batch ≠ []) :
    mq.All dbRun [] =
      .ret [] (if hasMoreOf mq.limit batch.length then (allButLast batch).2
          else (iterNextAll batch).2)
        (hasMoreOf mq.limit batch.length)
        (some (if hasMoreOf mq.limit batch.length then (allButLast batch).1
          else (iterNextAll batch).1)) := by
  have hlen : 0 < batch.length := List.length_pos.mpr hne
  by_cases hm : hasMoreOf mq.limit batch.length <;>
    simp [minQuery.All, hc, hdb, hlen, deliver, hm]

/-- Witness: with a non-empty input token and a one-document batch, the
cursor comes back empty, not as the input token. -/
theorem all_no_cursorFields_empty_cursor_witness :
    ({ mq0 with cursor := [120] } : minQuery).cursor ≠ [] ∧
    minQuery.All { mq0 with cursor := [120] } (fun _ => DBResp.ok [RawDoc.doc []]) [] =
      .ret [] none false (some [[]]) := by
  refine ⟨by decide, ?_⟩
  exact all_no_cursorFields_empty_cursor { mq0 with cursor := [120] }
    (fun _ => DBResp.ok [RawDoc.doc []]) [RawDoc.doc []] rfl rfl (by decide)

end Minquery
